import Mathlib

/-!
Verification of the dynamically resizable worker-thread pool implemented in
`src/gui/src/thread_pool.cpp` (class `ngp::ThreadPool`).

The pool state is embedded shallowly: the member variables `m_num_threads`
(the target thread count, a `size_t`), `m_threads` (the owned worker threads,
a vector ordered by spawn time, back = most recently spawned) and
`m_task_queue` (a FIFO deque of tasks, front = oldest) become fields of a
Lean structure.  Tasks are opaque nullary closures; we identify a task by an
abstract `Nat` id, since the pool never inspects a task's body.  A worker
thread is represented by the integer index `i` that the C++ lambda captures
(the value of `m_threads.size()` at the moment it was spawned) together with
a ghost serial number modelling the identity of the underlying
`std::thread` handle, which lets us state that no handle is ever joined
twice even when spawn indices are reused after a shrink.

Blocking primitives are embedded as follows: `condition_variable::wait` with
a predicate returns only in a state satisfying the predicate, so the wait
call is modelled as a partial function defined exactly on such states;
`back()`/`front()` on an empty container is undefined behaviour, modelled by
`Option`.  The lock discipline (claim C6) is modelled separately by the
sequence of lock/unlock/write events each member function performs, read off
the source line by line.
-/

/-- A worker thread.  `idx` is the index captured by the worker lambda in
`start_threads` (the value of `m_threads.size()` when it was spawned);
`serial` is a ghost spawn serial number modelling the identity of the
underlying `std::thread` handle (distinct across the whole history of the
pool, unlike `idx`, which is reused after a shrink). -/
structure Worker where
  idx : Nat
  serial : Nat
deriving DecidableEq, Repr

/-- The state of an `ngp::ThreadPool`: the fields `m_num_threads`,
`m_threads` (spawn order, back = most recent) and `m_task_queue` (front =
head = oldest task) of the C++ class.  `m_next_serial` is a ghost counter
providing the `serial` of the next spawned worker. -/
structure ThreadPool where
  m_num_threads : Nat
  m_threads : List Worker
  m_task_queue : List Nat
  m_next_serial : Nat
deriving DecidableEq, Repr

/-- `ThreadPool::start_threads(size_t num)`: increments `m_num_threads` by
`num` (without taking the lock), then runs
`for (size_t i = m_threads.size(); i < m_num_threads; ++i)
   m_threads.emplace_back(worker lambda capturing i);`.
The loop appends one worker per index from the current `m_threads.size()`
up to the new `m_num_threads`; writing `cnt` for the number of iterations,
the `j`-th new worker has index `m_threads.size() + j` and is given the
next ghost serial. -/
def start_threads (p : ThreadPool) (num : Nat) : ThreadPool :=
  let n := p.m_num_threads + num
  let cnt := n - p.m_threads.length
  { p with
    m_num_threads := n
    m_threads := p.m_threads ++
      (List.range cnt).map (fun j => ⟨p.m_threads.length + j, p.m_next_serial + j⟩)
    m_next_serial := p.m_next_serial + cnt }

/-- The join loop of `ThreadPool::shutdown_threads`:
`for (auto i = 0u; i < num_to_close; ++i) { m_threads.back().join(); m_threads.pop_back(); }`.
Returns the remaining thread vector together with the joined workers in join
order; `none` models the undefined behaviour of `back()` on an empty
vector. -/
def joinLoop : List Worker → Nat → Option (List Worker × List Worker)
  | ts, 0 => some (ts, [])
  | ts, Nat.succ k =>
    match ts.getLast? with
    | none => none
    | some w => (joinLoop ts.dropLast k).map fun r => (r.1, w :: r.2)

/-- `ThreadPool::shutdown_threads(size_t num)`: computes
`num_to_close = min(num, m_num_threads)`, decrements `m_num_threads` by it
under the lock, notifies all workers, then joins and pops the back of
`m_threads` `num_to_close` times.  Returns the new pool state and the
joined workers in join order. -/
def shutdown_threads (p : ThreadPool) (num : Nat) : Option (ThreadPool × List Worker) :=
  let num_to_close := min num p.m_num_threads
  (joinLoop p.m_threads num_to_close).map fun r =>
    ({ p with m_num_threads := p.m_num_threads - num_to_close, m_threads := r.1 }, r.2)

/-- `ThreadPool::set_n_threads(size_t num)`: shrinks via `shutdown_threads`
when `m_num_threads > num`, grows via `start_threads` when
`m_num_threads < num`, otherwise does nothing.  Also returns the workers
joined by the shrink branch. -/
def set_n_threads (p : ThreadPool) (num : Nat) : Option (ThreadPool × List Worker) :=
  if num < p.m_num_threads then
    shutdown_threads p (p.m_num_threads - num)
  else if p.m_num_threads < num then
    some (start_threads p (num - p.m_num_threads), [])
  else
    some (p, [])

/-- `ThreadPool::wait_until_queue_completed()`:
`m_task_queue_completed_condition.wait(lock, [this]{ return m_task_queue.empty(); });`.
A predicated condition-variable wait returns only in a state in which the
predicate holds under the lock, and mutates nothing itself; it is embedded
as the partial identity defined exactly on states with an empty queue. -/
def wait_until_queue_completed (p : ThreadPool) : Option ThreadPool :=
  if p.m_task_queue = [] then some p else none

/-- `ThreadPool::flush_queue()`: `m_task_queue.clear();` under the lock. -/
def flush_queue (p : ThreadPool) : ThreadPool :=
  { p with m_task_queue := [] }

/-- The constructor `ThreadPool::ThreadPool(size_t max_num_threads, bool force)`:
clamps `max_num_threads` to `min(hardware_concurrency, max_num_threads)`
unless `force` is set, then calls `start_threads` on the empty pool.  The
hardware concurrency `hw` is an external capability and is passed as a
parameter. -/
def ThreadPool.construct (hw : Nat) (max_num_threads : Nat) (force : Bool) : ThreadPool :=
  let m := if force then max_num_threads else min hw max_num_threads
  start_threads ⟨0, [], [], 0⟩ m

/-- The outcome of one evaluation of the worker-lambda loop body (the
`while (true)` body in `start_threads`), entered with the lock just
(re)acquired. -/
inductive WorkerOutcome where
  | blocked
  | terminated
  | dequeued (task : Nat) (p : ThreadPool)
deriving Repr

/-- One evaluation of the worker loop body for the worker whose lambda
captured index `i`, starting with the lock held.
With `i < m_num_threads && m_task_queue.empty()` the worker notifies the
queue-completed condition and blocks in `m_worker_condition.wait(lock)`
(outcome `blocked`; it will re-run the body when notified).  Otherwise, if
`i >= m_num_threads` it breaks out of the loop (outcome `terminated`).
Otherwise it moves `m_task_queue.front()` out, pops it, unlocks and runs
the task (outcome `dequeued`, carrying the popped task and the updated
pool).  The `[]` branch of the match is unreachable: the two guards above
it guarantee the queue is nonempty there. -/
def workerLoopBody (i : Nat) (p : ThreadPool) : WorkerOutcome :=
  if i < p.m_num_threads ∧ p.m_task_queue = [] then
    .blocked
  else if p.m_num_threads ≤ i then
    .terminated
  else
    match p.m_task_queue with
    | [] => .blocked
    | t :: rest => .dequeued t { p with m_task_queue := rest }

/-- Modelled from the spec: task submission is not part of the given source
(spec section 4.9 infers it); it appends the task at the tail of the queue
under the shared lock. -/
def submit (p : ThreadPool) (t : Nat) : ThreadPool :=
  { p with m_task_queue := p.m_task_queue ++ [t] }

/-- The sequence of tasks a single worker with index `i` dequeues, in order,
by repeatedly evaluating the worker loop body; `fuel` bounds the number of
iterations. -/
def dequeueOrder (i : Nat) : Nat → ThreadPool → List Nat
  | 0, _ => []
  | Nat.succ fuel, p =>
    match workerLoopBody i p with
    | .dequeued t q => t :: dequeueOrder i fuel q
    | _ => []

/-- Synchronisation-relevant events a pool member function performs, in
program order.  `lock` and `unlock` are acquisitions and releases of
`m_task_queue_mutex` (a `unique_lock` or `lock_guard` constructor and
destructor, or the implicit release/reacquire inside a condition-variable
wait).  `writeQueue` is a mutation of `m_task_queue`, `writeCount` a
mutation of `m_num_threads`, `writeThreads` a mutation of the `m_threads`
vector. -/
inductive Event where
  | lock
  | unlock
  | writeQueue
  | writeCount
  | writeThreads
  | notifyWorkers
  | notifyDrained
  | joinThread
  | runTask
deriving DecidableEq, Repr

/-- Event trace of `start_threads(num)` when its spawn loop runs `cnt`
iterations: `m_num_threads += num;` (a `writeCount`, with no lock guard in
the source), then one `emplace_back` per iteration. -/
def start_threads_trace (cnt : Nat) : List Event :=
  Event.writeCount :: List.replicate cnt Event.writeThreads

/-- One iteration of the join loop of `shutdown_threads`:
`m_threads.back().join(); m_threads.pop_back();`. -/
def joinIter : List Event :=
  [Event.joinThread, Event.writeThreads]

/-- Event trace of `shutdown_threads` when its join loop runs `k`
iterations: a `lock_guard` scope around `m_num_threads -= num_to_close;`,
then `m_worker_condition.notify_all();`, then the join loop. -/
def shutdown_threads_trace (k : Nat) : List Event :=
  [Event.lock, Event.writeCount, Event.unlock, Event.notifyWorkers] ++
    (List.replicate k joinIter).flatten

/-- Event trace of `flush_queue`: a `lock_guard` scope around
`m_task_queue.clear();`. -/
def flush_queue_trace : List Event :=
  [Event.lock, Event.writeQueue, Event.unlock]

/-- Event trace of `wait_until_queue_completed`, with `w` wakeups of the
predicated wait before the predicate holds: the `unique_lock` is taken,
each sleep releases and reacquires it, and it is released on return.
The wait only reads `m_task_queue`. -/
def wait_until_queue_completed_trace (w : Nat) : List Event :=
  Event.lock :: (List.replicate w [Event.unlock, Event.lock]).flatten ++ [Event.unlock]

/-- One iteration of the worker's inner wait loop:
`m_task_queue_completed_condition.notify_all(); m_worker_condition.wait(lock);`
(the wait releases the lock while sleeping and reacquires it on wakeup). -/
def workerWaitIter : List Event :=
  [Event.notifyDrained, Event.unlock, Event.lock]

/-- Event trace of one iteration of the worker lambda's `while (true)` body,
with `w` inner wait iterations: acquire the `unique_lock`, wait `w` times,
then either break (releasing the lock, when `exits` is true) or pop the
front task (`writeQueue`), unlock and run it. -/
def worker_body_trace (w : Nat) (exits : Bool) : List Event :=
  Event.lock :: (List.replicate w workerWaitIter).flatten ++
    (if exits then [Event.unlock]
     else [Event.writeQueue, Event.unlock, Event.runTask])

/-- Lock depth after a trace, starting from depth `d`. -/
def depthAfter : Nat → List Event → Nat
  | d, [] => d
  | d, Event.lock :: es => depthAfter (d + 1) es
  | d, Event.unlock :: es => depthAfter (d - 1) es
  | d, _ :: es => depthAfter d es

/-- Holds when, starting from lock depth `d`, every mutation of the task
queue or of the worker target count in the trace happens with the lock held
(depth positive).  This is the shared-resource policy of claim C6 for the
two pieces of state the claim names. -/
def writesLockedFrom : Nat → List Event → Bool
  | _, [] => true
  | d, Event.lock :: es => writesLockedFrom (d + 1) es
  | d, Event.unlock :: es => writesLockedFrom (d - 1) es
  | d, Event.writeQueue :: es => decide (0 < d) && writesLockedFrom d es
  | d, Event.writeCount :: es => decide (0 < d) && writesLockedFrom d es
  | d, _ :: es => writesLockedFrom d es

/-- Resize operations a caller can perform on a live pool (the operations
claim C7 quantifies over). -/
inductive Cmd where
  | grow (n : Nat)
  | shrink (n : Nat)
  | setN (n : Nat)
deriving DecidableEq, Repr

/-- Runs one resize command, returning the new pool state and the workers
joined by the command (in join order). -/
def runCmd (p : ThreadPool) : Cmd → Option (ThreadPool × List Worker)
  | .grow n => some (start_threads p n, [])
  | .shrink n => shutdown_threads p n
  | .setN n => set_n_threads p n

/-- Runs a sequence of resize commands, accumulating the joined workers in
join order. -/
def runCmds (p : ThreadPool) : List Cmd → Option (ThreadPool × List Worker)
  | [] => some (p, [])
  | c :: cs =>
    (runCmd p c).bind fun r =>
      (runCmds r.1 cs).map fun s => (s.1, r.2 ++ s.2)

/-- The destructor `ThreadPool::~ThreadPool()`:
`wait_until_queue_completed(); shutdown_threads(m_threads.size());`.
Returns the final state and the workers joined during destruction. -/
def destruct (p : ThreadPool) : Option (ThreadPool × List Worker) :=
  (wait_until_queue_completed p).bind fun q =>
    shutdown_threads q q.m_threads.length

/-- Unsigned `w`-bit (C `size_t`) subtraction: `a - b` computed modulo
`2 ^ w`, for `a b < 2 ^ w`. -/
def usub (w a b : Nat) : Nat :=
  (2 ^ w + a - b) % 2 ^ w

/-- The value `shutdown_threads` stores into `m_num_threads` under C
`size_t` semantics with word width `w`: the unsigned subtraction
`m_num_threads - min(num, m_num_threads)` where `t` is the old count. -/
def shutdown_new_count (w num t : Nat) : Nat :=
  usub w t (min num t)

/-- Well-formedness of a pool state reached after the workers in `acc` have
been joined: the thread vector agrees with the target count, the queue is
empty (no submissions happen during a pure resize history), and the joined
workers together with the live ones account for every ghost serial ever
handed out, each exactly once. -/
def poolWF (acc : List Worker) (p : ThreadPool) : Prop :=
  p.m_threads.length = p.m_num_threads ∧
  p.m_task_queue = [] ∧
  ((acc ++ p.m_threads).map Worker.serial).Perm (List.range p.m_next_serial)

/-- Closed form of the join loop: joining `k` times from the back removes
the last `k` workers and yields them in reverse spawn order. -/
lemma joinLoop_eq (k : Nat) : ∀ ts : List Worker, k ≤ ts.length →
    joinLoop ts k = some (ts.take (ts.length - k), (ts.drop (ts.length - k)).reverse) := by
  induction k with
  | zero =>
    intro ts _
    simp [joinLoop]
  | succ k ih =>
    intro ts h
    rcases List.eq_nil_or_concat ts with rfl | ⟨A, x, rfl⟩
    · simp at h
    · rw [List.concat_eq_append] at h ⊢
      have hlen : (A ++ [x]).length = A.length + 1 := by simp
      have hk : k ≤ A.length := by
        rw [hlen] at h
        omega
      have hj : (A ++ [x]).length - (k + 1) = A.length - k := by
        rw [hlen]
        omega
      have hjA : A.length - k ≤ A.length := Nat.sub_le _ _
      rw [hj, List.take_append_of_le_length hjA, List.drop_append_of_le_length hjA]
      simp only [joinLoop, List.getLast?_concat, List.dropLast_concat, ih A hk,
        Option.map_some']
      simp

/-- Closed form of `shutdown_threads` whenever the join loop cannot hit an
empty vector: writing `k` for `min num m_num_threads`, the target count
drops by `k`, the last `k` workers are removed, and they are joined in
reverse spawn order. -/
lemma shutdown_threads_eq (p : ThreadPool) (num : Nat)
    (h : min num p.m_num_threads ≤ p.m_threads.length) :
    shutdown_threads p num =
      some ({ p with
                m_num_threads := p.m_num_threads - min num p.m_num_threads
                m_threads :=
                  p.m_threads.take (p.m_threads.length - min num p.m_num_threads) },
            (p.m_threads.drop (p.m_threads.length - min num p.m_num_threads)).reverse) := by
  simp only [shutdown_threads]
  rw [joinLoop_eq _ _ h]
  rfl

/-- C1: `shutdown_threads(n)` on a pool with target count `t` decreases the
target count by exactly `k = min(n, t)`, joins exactly `k` workers, always
removing the most recently spawned worker first (the joined list is the
reverse of the retired suffix of the spawn-ordered thread vector), and when
`n > t` it closes all current workers rather than failing. -/
theorem shutdown_threads_retires_last_spawned_first (p : ThreadPool) (n : Nat)
    (hinv : p.m_threads.length = p.m_num_threads) :
    ∃ q js, shutdown_threads p n = some (q, js) ∧
      q.m_num_threads = p.m_num_threads - min n p.m_num_threads ∧
      q.m_threads = p.m_threads.take (p.m_threads.length - min n p.m_num_threads) ∧
      js = (p.m_threads.drop (p.m_threads.length - min n p.m_num_threads)).reverse ∧
      js.length = min n p.m_num_threads ∧
      (p.m_num_threads ≤ n → q.m_threads = [] ∧ js = p.m_threads.reverse) := by
  have hk : min n p.m_num_threads ≤ p.m_threads.length := by
    rw [hinv]
    exact Nat.min_le_right _ _
  refine ⟨_, _, shutdown_threads_eq p n hk, rfl, rfl, rfl, ?_, ?_⟩
  · simp only [List.length_reverse, List.length_drop]
    omega
  · intro hle
    have hmin : min n p.m_num_threads = p.m_num_threads := Nat.min_eq_right hle
    rw [hmin, hinv]
    simp

/-- Witness for C1 at a concrete pool: two live workers, shutdown of five. -/
theorem shutdown_threads_retires_last_spawned_first_witness :
    (⟨2, [⟨0, 0⟩, ⟨1, 1⟩], [], 2⟩ : ThreadPool).m_threads.length =
      (⟨2, [⟨0, 0⟩, ⟨1, 1⟩], [], 2⟩ : ThreadPool).m_num_threads ∧
    (∃ q js, shutdown_threads ⟨2, [⟨0, 0⟩, ⟨1, 1⟩], [], 2⟩ 5 = some (q, js) ∧
      q.m_num_threads =
        (⟨2, [⟨0, 0⟩, ⟨1, 1⟩], [], 2⟩ : ThreadPool).m_num_threads -
          min 5 (⟨2, [⟨0, 0⟩, ⟨1, 1⟩], [], 2⟩ : ThreadPool).m_num_threads ∧
      q.m_threads =
        (⟨2, [⟨0, 0⟩, ⟨1, 1⟩], [], 2⟩ : ThreadPool).m_threads.take
          ((⟨2, [⟨0, 0⟩, ⟨1, 1⟩], [], 2⟩ : ThreadPool).m_threads.length -
            min 5 (⟨2, [⟨0, 0⟩, ⟨1, 1⟩], [], 2⟩ : ThreadPool).m_num_threads) ∧
      js =
        ((⟨2, [⟨0, 0⟩, ⟨1, 1⟩], [], 2⟩ : ThreadPool).m_threads.drop
          ((⟨2, [⟨0, 0⟩, ⟨1, 1⟩], [], 2⟩ : ThreadPool).m_threads.length -
            min 5 (⟨2, [⟨0, 0⟩, ⟨1, 1⟩], [], 2⟩ : ThreadPool).m_num_threads)).reverse ∧
      js.length = min 5 (⟨2, [⟨0, 0⟩, ⟨1, 1⟩], [], 2⟩ : ThreadPool).m_num_threads ∧
      ((⟨2, [⟨0, 0⟩, ⟨1, 1⟩], [], 2⟩ : ThreadPool).m_num_threads ≤ 5 →
        q.m_threads = [] ∧
        js = (⟨2, [⟨0, 0⟩, ⟨1, 1⟩], [], 2⟩ : ThreadPool).m_threads.reverse)) :=
  ⟨by decide,
   shutdown_threads_retires_last_spawned_first ⟨2, [⟨0, 0⟩, ⟨1, 1⟩], [], 2⟩ 5 (by decide)⟩

/-- C2: an evaluation of the worker loop body for the worker with spawn
index `i` terminates the worker if and only if `i >= m_num_threads` holds at
that evaluation point; in particular a worker whose index is below the
target count never terminates, whatever the queue contains. -/
theorem worker_terminates_iff_index_at_least_target (i : Nat) (p : ThreadPool) :
    workerLoopBody i p = WorkerOutcome.terminated ↔ p.m_num_threads ≤ i := by
  unfold workerLoopBody
  split
  · next h =>
    have hi : i < p.m_num_threads := h.1
    constructor
    · intro hc
      cases hc
    · intro hge
      omega
  · next h =>
    split
    · next h2 =>
      exact ⟨fun _ => h2, fun _ => rfl⟩
    · next h2 =>
      have hi : i < p.m_num_threads := Nat.lt_of_not_le h2
      cases hq : p.m_task_queue with
      | nil => exact absurd ⟨hi, hq⟩ h
      | cons t rest =>
        constructor
        · intro hc
          cases hc
        · intro hge
          omega

/-- When the queue holds `t` at its head and the worker's index is below the
target count, the worker loop body pops exactly the head task. -/
lemma workerLoopBody_dequeues_head (i : Nat) (q : ThreadPool) (t : Nat) (rest : List Nat)
    (hq : q.m_task_queue = t :: rest) (hi : i < q.m_num_threads) :
    workerLoopBody i q = WorkerOutcome.dequeued t { q with m_task_queue := rest } := by
  unfold workerLoopBody
  rw [if_neg, if_neg]
  · rw [hq]
  · omega
  · intro hc
    rw [hq] at hc
    cases hc.2

/-- Submitting a batch of tasks appends them in order at the tail of the
queue and leaves the target count unchanged. -/
lemma foldl_submit_queue (ts : List Nat) : ∀ p : ThreadPool,
    (List.foldl submit p ts).m_task_queue = p.m_task_queue ++ ts ∧
    (List.foldl submit p ts).m_num_threads = p.m_num_threads := by
  induction ts with
  | nil =>
    intro p
    simp
  | cons t ts ih =>
    intro p
    have h := ih (submit p t)
    simpa [submit] using h

/-- A single worker whose index stays below the target count empties a
queue holding `q` by dequeuing exactly `q` in order. -/
lemma dequeueOrder_eq_queue (i : Nat) : ∀ (q : List Nat) (p : ThreadPool),
    p.m_task_queue = q → i < p.m_num_threads → dequeueOrder i q.length p = q := by
  intro q
  induction q with
  | nil =>
    intro p _ _
    simp [dequeueOrder]
  | cons t rest ih =>
    intro p hq hi
    have hb := workerLoopBody_dequeues_head i p t rest hq hi
    have hrec := ih { p with m_task_queue := rest } rfl hi
    simp only [List.length_cons, dequeueOrder, hb]
    rw [hrec]

/-- C3: tasks are dequeued in FIFO submission order.  Every dequeue removes
the task at the head of the queue, and a single worker servicing a batch of
submissions starts the tasks in exactly the order they were submitted. -/
theorem single_worker_fifo_order (i : Nat) (p : ThreadPool) (ts : List Nat)
    (hempty : p.m_task_queue = []) (hi : i < p.m_num_threads) :
    dequeueOrder i ts.length (List.foldl submit p ts) = ts ∧
    (∀ (q : ThreadPool) (t : Nat) (rest : List Nat),
      q.m_task_queue = t :: rest → i < q.m_num_threads →
      workerLoopBody i q = WorkerOutcome.dequeued t { q with m_task_queue := rest }) := by
  constructor
  · have h := foldl_submit_queue ts p
    have hq : (List.foldl submit p ts).m_task_queue = ts := by
      rw [h.1, hempty]
      simp
    have hn : i < (List.foldl submit p ts).m_num_threads := by
      rw [h.2]
      exact hi
    exact dequeueOrder_eq_queue i ts _ hq hn
  · intro q t rest hq hiq
    exact workerLoopBody_dequeues_head i q t rest hq hiq

/-- Witness for C3: one worker, three submitted tasks, dequeued in order. -/
theorem single_worker_fifo_order_witness :
    (⟨1, [⟨0, 0⟩], [], 1⟩ : ThreadPool).m_task_queue = [] ∧
    0 < (⟨1, [⟨0, 0⟩], [], 1⟩ : ThreadPool).m_num_threads ∧
    (dequeueOrder 0 [10, 20, 30].length
        (List.foldl submit ⟨1, [⟨0, 0⟩], [], 1⟩ [10, 20, 30]) = [10, 20, 30] ∧
      (∀ (q : ThreadPool) (t : Nat) (rest : List Nat),
        q.m_task_queue = t :: rest → 0 < q.m_num_threads →
        workerLoopBody 0 q = WorkerOutcome.dequeued t { q with m_task_queue := rest })) :=
  ⟨by decide, by decide,
   single_worker_fifo_order 0 ⟨1, [⟨0, 0⟩], [], 1⟩ [10, 20, 30] (by decide) (by decide)⟩

/-- `start_threads` restores `m_threads.size() == m_num_threads`. -/
lemma start_threads_inv (p : ThreadPool) (num : Nat)
    (hinv : p.m_threads.length = p.m_num_threads) :
    (start_threads p num).m_threads.length = (start_threads p num).m_num_threads := by
  simp only [start_threads, List.length_append, List.length_map, List.length_range]
  omega

/-- `shutdown_threads` succeeds under the invariant and restores it. -/
lemma shutdown_threads_inv (p : ThreadPool) (num : Nat)
    (hinv : p.m_threads.length = p.m_num_threads) :
    ∃ q js, shutdown_threads p num = some (q, js) ∧
      q.m_threads.length = q.m_num_threads := by
  have hk : min num p.m_num_threads ≤ p.m_threads.length := by
    rw [hinv]
    exact Nat.min_le_right _ _
  refine ⟨_, _, shutdown_threads_eq p num hk, ?_⟩
  simp only [List.length_take]
  omega

/-- C4: each of `start_threads`, `shutdown_threads` and `set_n_threads`,
called on a pool satisfying `m_threads.size() == m_num_threads`, returns
with the invariant restored, so no partial resize is observable to the
caller. -/
theorem resize_restores_thread_count_invariant (p : ThreadPool) (num : Nat)
    (hinv : p.m_threads.length = p.m_num_threads) :
    (start_threads p num).m_threads.length = (start_threads p num).m_num_threads ∧
    (∃ q js, shutdown_threads p num = some (q, js) ∧
      q.m_threads.length = q.m_num_threads) ∧
    (∃ q js, set_n_threads p num = some (q, js) ∧
      q.m_threads.length = q.m_num_threads) := by
  refine ⟨start_threads_inv p num hinv, shutdown_threads_inv p num hinv, ?_⟩
  unfold set_n_threads
  split
  · exact shutdown_threads_inv p _ hinv
  · split
    · exact ⟨_, _, rfl, start_threads_inv p _ hinv⟩
    · exact ⟨_, _, rfl, hinv⟩

/-- Witness for C4 at a concrete pool with two workers, resized by three. -/
theorem resize_restores_thread_count_invariant_witness :
    (⟨2, [⟨0, 0⟩, ⟨1, 1⟩], [], 2⟩ : ThreadPool).m_threads.length =
      (⟨2, [⟨0, 0⟩, ⟨1, 1⟩], [], 2⟩ : ThreadPool).m_num_threads ∧
    ((start_threads ⟨2, [⟨0, 0⟩, ⟨1, 1⟩], [], 2⟩ 3).m_threads.length =
        (start_threads ⟨2, [⟨0, 0⟩, ⟨1, 1⟩], [], 2⟩ 3).m_num_threads ∧
      (∃ q js, shutdown_threads ⟨2, [⟨0, 0⟩, ⟨1, 1⟩], [], 2⟩ 3 = some (q, js) ∧
        q.m_threads.length = q.m_num_threads) ∧
      (∃ q js, set_n_threads ⟨2, [⟨0, 0⟩, ⟨1, 1⟩], [], 2⟩ 3 = some (q, js) ∧
        q.m_threads.length = q.m_num_threads)) :=
  ⟨by decide, resize_restores_thread_count_invariant ⟨2, [⟨0, 0⟩, ⟨1, 1⟩], [], 2⟩ 3 (by decide)⟩

/-- C5: `wait_until_queue_completed` returns only in a state in which the
task queue is empty, and it mutates nothing: any returned state equals the
observed state and has an empty queue. -/
theorem wait_until_queue_completed_returns_empty (p q : ThreadPool)
    (h : wait_until_queue_completed p = some q) :
    q.m_task_queue = [] ∧ q = p := by
  unfold wait_until_queue_completed at h
  split at h
  · next he =>
    cases h
    exact ⟨he, rfl⟩
  · cases h

/-- Witness for C5 at a concrete drained pool. -/
theorem wait_until_queue_completed_returns_empty_witness :
    wait_until_queue_completed ⟨1, [⟨0, 0⟩], [], 1⟩ = some ⟨1, [⟨0, 0⟩], [], 1⟩ ∧
    ((⟨1, [⟨0, 0⟩], [], 1⟩ : ThreadPool).m_task_queue = [] ∧
      (⟨1, [⟨0, 0⟩], [], 1⟩ : ThreadPool) = ⟨1, [⟨0, 0⟩], [], 1⟩) :=
  ⟨by decide,
   wait_until_queue_completed_returns_empty ⟨1, [⟨0, 0⟩], [], 1⟩ ⟨1, [⟨0, 0⟩], [], 1⟩
     (by decide)⟩

/-- Lock depth composes over concatenated traces. -/
lemma depthAfter_append (a : List Event) : ∀ (d : Nat) (b : List Event),
    depthAfter d (a ++ b) = depthAfter (depthAfter d a) b := by
  induction a with
  | nil =>
    intro d b
    rfl
  | cons e es ih =>
    intro d b
    cases e <;> simp only [List.cons_append, depthAfter] <;> exact ih _ _

/-- The locked-writes check composes over concatenated traces. -/
lemma writesLockedFrom_append (a : List Event) : ∀ (d : Nat) (b : List Event),
    writesLockedFrom d (a ++ b) =
      (writesLockedFrom d a && writesLockedFrom (depthAfter d a) b) := by
  induction a with
  | nil =>
    intro d b
    simp [writesLockedFrom, depthAfter]
  | cons e es ih =>
    intro d b
    cases e <;>
      simp only [List.cons_append, List.append_eq, writesLockedFrom, depthAfter, ih,
        Bool.and_assoc]

/-- The join loop of `shutdown_threads` touches neither the lock nor the
queue nor the count: it is write-safe at any depth and leaves the depth
unchanged. -/
lemma joinIter_flatten_safe (k : Nat) : ∀ d : Nat,
    writesLockedFrom d (List.replicate k joinIter).flatten = true ∧
    depthAfter d (List.replicate k joinIter).flatten = d := by
  induction k with
  | zero =>
    intro d
    exact ⟨rfl, rfl⟩
  | succ k ih =>
    intro d
    have h := ih d
    simp only [List.replicate_succ, List.flatten_cons, writesLockedFrom_append,
      depthAfter_append]
    simp only [joinIter, writesLockedFrom, depthAfter] at h ⊢
    exact ⟨by simp [h.1], h.2⟩

/-- The worker's inner wait loop, entered at depth 1, keeps all writes
locked (it performs none) and returns at depth 1. -/
lemma workerWaitIter_flatten_safe (w : Nat) :
    writesLockedFrom 1 (List.replicate w workerWaitIter).flatten = true ∧
    depthAfter 1 (List.replicate w workerWaitIter).flatten = 1 := by
  induction w with
  | zero => exact ⟨rfl, rfl⟩
  | succ w ih =>
    simp only [List.replicate_succ, List.flatten_cons, writesLockedFrom_append,
      depthAfter_append]
    simp only [workerWaitIter, writesLockedFrom, depthAfter] at ih ⊢
    exact ⟨by simp [ih.1], ih.2⟩

/-- The sleep/reacquire cycles of the predicated wait in
`wait_until_queue_completed`, entered at depth 1, perform no writes and
return at depth 1. -/
lemma waitCycle_flatten_safe (w : Nat) :
    writesLockedFrom 1 (List.replicate w [Event.unlock, Event.lock]).flatten = true ∧
    depthAfter 1 (List.replicate w [Event.unlock, Event.lock]).flatten = 1 := by
  induction w with
  | zero => exact ⟨rfl, rfl⟩
  | succ w ih =>
    simp only [List.replicate_succ, List.flatten_cons, writesLockedFrom_append,
      depthAfter_append]
    simp only [writesLockedFrom, depthAfter] at ih ⊢
    exact ⟨by simp [ih.1], ih.2⟩

/-- C6 counterexample: the very first event of `start_threads` is the
increment `m_num_threads += num;`, executed at lock depth 0 — the claim
that every mutation of the worker target count happens under the mutex is
false for the trace of `start_threads(1)`. -/
theorem start_threads_writes_count_unlocked :
    writesLockedFrom 0 (start_threads_trace 1) = false := by
  rfl

/-- C6 amended: every mutation of the task queue (in the worker loop and in
`flush_queue`) and the target-count decrement of `shutdown_threads` happen
with the mutex held, but `start_threads` increments the target count without
holding the lock, for any number of loop iterations, inner waits, or exit
path. -/
theorem lock_discipline_except_start_threads (k w cnt : Nat) (exits : Bool) :
    writesLockedFrom 0 (shutdown_threads_trace k) = true ∧
    writesLockedFrom 0 flush_queue_trace = true ∧
    writesLockedFrom 0 (wait_until_queue_completed_trace w) = true ∧
    writesLockedFrom 0 (worker_body_trace w exits) = true ∧
    writesLockedFrom 0 (start_threads_trace cnt) = false := by
  refine ⟨?_, rfl, ?_, ?_, ?_⟩
  · simp only [shutdown_threads_trace, writesLockedFrom_append, writesLockedFrom,
      depthAfter]
    simp [(joinIter_flatten_safe k 0).1]
  · simp only [wait_until_queue_completed_trace, writesLockedFrom,
      writesLockedFrom_append, depthAfter]
    simp [writesLockedFrom_append, (waitCycle_flatten_safe w).1,
      (waitCycle_flatten_safe w).2, writesLockedFrom]
  · cases exits <;>
      simp only [worker_body_trace, writesLockedFrom, writesLockedFrom_append,
        depthAfter, Bool.if_true_left, Bool.if_false_left] <;>
      simp [writesLockedFrom_append, (workerWaitIter_flatten_safe w).1,
        (workerWaitIter_flatten_safe w).2, writesLockedFrom]
  · simp only [start_threads_trace, writesLockedFrom]
    simp

/-- C8: with hardware concurrency `hw`, the constructor with `force = false`
spawns `min(requested, hw)` workers (target count and thread vector agree),
and with `force = true` it spawns exactly the requested count, unclamped. -/
theorem constructor_clamps_unless_forced (hw requested : Nat) :
    (ThreadPool.construct hw requested false).m_num_threads = min requested hw ∧
    (ThreadPool.construct hw requested false).m_threads.length = min requested hw ∧
    (ThreadPool.construct hw requested true).m_num_threads = requested ∧
    (ThreadPool.construct hw requested true).m_threads.length = requested := by
  simp [ThreadPool.construct, start_threads, Nat.min_comm]

/-- C9: `flush_queue` empties the task queue and modifies no other pool
state: target count, thread vector and ghost serial counter are unchanged. -/
theorem flush_queue_empties_queue_only (p : ThreadPool) :
    (flush_queue p).m_task_queue = [] ∧
    (flush_queue p).m_num_threads = p.m_num_threads ∧
    (flush_queue p).m_threads = p.m_threads ∧
    (flush_queue p).m_next_serial = p.m_next_serial :=
  ⟨rfl, rfl, rfl, rfl⟩

/-- C10: because `shutdown_threads` computes `num_to_close = min(num, t)`
before subtracting, the `size_t` subtraction `m_num_threads -= num_to_close`
never wraps modulo `2 ^ w`: for any word width `w` with `t < 2 ^ w`, the
wrapping result coincides with the exact natural-number result
`t - min(num, t)`, which is `0` whenever `num >= t`. -/
theorem shutdown_threads_subtraction_no_wrap (w num : Nat) (p : ThreadPool)
    (hinv : p.m_threads.length = p.m_num_threads)
    (hw : p.m_num_threads < 2 ^ w) :
    ∃ q js, shutdown_threads p num = some (q, js) ∧
      shutdown_new_count w num p.m_num_threads = q.m_num_threads ∧
      q.m_num_threads = p.m_num_threads - min num p.m_num_threads ∧
      (p.m_num_threads ≤ num → q.m_num_threads = 0) := by
  have hk : min num p.m_num_threads ≤ p.m_threads.length := by
    rw [hinv]
    exact Nat.min_le_right _ _
  refine ⟨_, _, shutdown_threads_eq p num hk, ?_, rfl, ?_⟩
  · show shutdown_new_count w num p.m_num_threads =
      p.m_num_threads - min num p.m_num_threads
    unfold shutdown_new_count usub
    have hm : min num p.m_num_threads ≤ p.m_num_threads := Nat.min_le_right _ _
    have hsplit : 2 ^ w + p.m_num_threads - min num p.m_num_threads =
        2 ^ w + (p.m_num_threads - min num p.m_num_threads) := by
      omega
    rw [hsplit, Nat.add_mod_left]
    exact Nat.mod_eq_of_lt (by omega)
  · intro hle
    show p.m_num_threads - min num p.m_num_threads = 0
    omega

/-- Witness for C10 at word width 64, a pool with two workers, shutdown of
five. -/
theorem shutdown_threads_subtraction_no_wrap_witness :
    (⟨2, [⟨0, 0⟩, ⟨1, 1⟩], [], 2⟩ : ThreadPool).m_threads.length =
      (⟨2, [⟨0, 0⟩, ⟨1, 1⟩], [], 2⟩ : ThreadPool).m_num_threads ∧
    (⟨2, [⟨0, 0⟩, ⟨1, 1⟩], [], 2⟩ : ThreadPool).m_num_threads < 2 ^ 64 ∧
    (∃ q js, shutdown_threads ⟨2, [⟨0, 0⟩, ⟨1, 1⟩], [], 2⟩ 5 = some (q, js) ∧
      shutdown_new_count 64 5 (⟨2, [⟨0, 0⟩, ⟨1, 1⟩], [], 2⟩ : ThreadPool).m_num_threads =
        q.m_num_threads ∧
      q.m_num_threads =
        (⟨2, [⟨0, 0⟩, ⟨1, 1⟩], [], 2⟩ : ThreadPool).m_num_threads -
          min 5 (⟨2, [⟨0, 0⟩, ⟨1, 1⟩], [], 2⟩ : ThreadPool).m_num_threads ∧
      ((⟨2, [⟨0, 0⟩, ⟨1, 1⟩], [], 2⟩ : ThreadPool).m_num_threads ≤ 5 →
        q.m_num_threads = 0)) :=
  ⟨by decide, by norm_num,
   shutdown_threads_subtraction_no_wrap 64 5 ⟨2, [⟨0, 0⟩, ⟨1, 1⟩], [], 2⟩ (by decide)
     (by norm_num)⟩

/-- `start_threads` preserves pool well-formedness: the new workers take the
next fresh ghost serials, so joined plus live workers still enumerate every
serial ever handed out. -/
lemma poolWF_start (acc : List Worker) (p : ThreadPool) (num : Nat)
    (h : poolWF acc p) : poolWF acc (start_threads p num) := by
  obtain ⟨hlen, hq, hperm⟩ := h
  have hcnt : p.m_num_threads + num - p.m_threads.length = num := by omega
  refine ⟨?_, ?_, ?_⟩
  · simp only [start_threads, List.length_append, List.length_map, List.length_range]
    omega
  · simpa [start_threads] using hq
  · simp only [start_threads, hcnt]
    rw [List.range_add, ← List.append_assoc, List.map_append]
    refine hperm.append ?_
    rw [List.map_map]
    exact List.Perm.refl _

/-- A retired suffix, reversed into join order, together with the kept
prefix is a permutation of the original thread vector. -/
lemma retired_perm (ts : List Worker) (j : Nat) :
    (((ts.drop j).reverse ++ ts.take j)).Perm ts := by
  refine List.Perm.trans ((List.reverse_perm _).append_right _) ?_
  refine List.Perm.trans List.perm_append_comm ?_
  rw [List.take_append_drop]

/-- `shutdown_threads` preserves pool well-formedness, moving the retired
workers into the joined accumulator. -/
lemma poolWF_shutdown (acc : List Worker) (p : ThreadPool) (num : Nat)
    (h : poolWF acc p) :
    ∃ q js, shutdown_threads p num = some (q, js) ∧ poolWF (acc ++ js) q := by
  obtain ⟨hlen, hq, hperm⟩ := h
  have hk : min num p.m_num_threads ≤ p.m_threads.length := by
    rw [hlen]
    exact Nat.min_le_right _ _
  refine ⟨_, _, shutdown_threads_eq p num hk, ?_, hq, ?_⟩
  · simp only [List.length_take]
    omega
  · refine List.Perm.trans ?_ hperm
    refine List.Perm.map _ ?_
    rw [List.append_assoc]
    exact (retired_perm p.m_threads
      (p.m_threads.length - min num p.m_num_threads)).append_left acc

/-- `set_n_threads` preserves pool well-formedness. -/
lemma poolWF_setN (acc : List Worker) (p : ThreadPool) (num : Nat)
    (h : poolWF acc p) :
    ∃ q js, set_n_threads p num = some (q, js) ∧ poolWF (acc ++ js) q := by
  unfold set_n_threads
  split
  · exact poolWF_shutdown acc p _ h
  · split
    · exact ⟨_, _, rfl, by simpa using poolWF_start acc p _ h⟩
    · exact ⟨_, _, rfl, by simpa using h⟩

/-- Each resize command preserves pool well-formedness. -/
lemma poolWF_runCmd (acc : List Worker) (p : ThreadPool) (c : Cmd)
    (h : poolWF acc p) :
    ∃ q js, runCmd p c = some (q, js) ∧ poolWF (acc ++ js) q := by
  cases c with
  | grow n => exact ⟨_, _, rfl, by simpa using poolWF_start acc p n h⟩
  | shrink n => exact poolWF_shutdown acc p n h
  | setN n => exact poolWF_setN acc p n h

/-- A whole sequence of resize commands preserves pool well-formedness and
always succeeds. -/
lemma runCmds_wf : ∀ (cmds : List Cmd) (p : ThreadPool) (acc : List Worker),
    poolWF acc p →
    ∃ q js, runCmds p cmds = some (q, js) ∧ poolWF (acc ++ js) q := by
  intro cmds
  induction cmds with
  | nil =>
    intro p acc h
    exact ⟨p, [], rfl, by simpa using h⟩
  | cons c cs ih =>
    intro p acc h
    obtain ⟨q, js, hrun, hwf⟩ := poolWF_runCmd acc p c h
    obtain ⟨r, js2, hrun2, hwf2⟩ := ih q (acc ++ js) hwf
    refine ⟨r, js ++ js2, ?_, by simpa [List.append_assoc] using hwf2⟩
    simp [runCmds, hrun, hrun2]

/-- The destructor, run on a well-formed pool, succeeds: the queue wait
returns (the queue is empty), every remaining worker is joined, no thread
is left owned, and well-formedness carries over. -/
lemma destruct_wf (acc : List Worker) (p : ThreadPool) (h : poolWF acc p) :
    ∃ q js, destruct p = some (q, js) ∧ q.m_threads = [] ∧
      q.m_next_serial = p.m_next_serial ∧ poolWF (acc ++ js) q := by
  obtain ⟨hlen, hq, hperm⟩ := h
  have hk : min p.m_threads.length p.m_num_threads ≤ p.m_threads.length :=
    Nat.min_le_left _ _
  have hj : p.m_threads.length - min p.m_threads.length p.m_num_threads = 0 := by
    omega
  have hwait : wait_until_queue_completed p = some p := by
    simp [wait_until_queue_completed, hq]
  have hsd := shutdown_threads_eq p p.m_threads.length hk
  rw [hj, List.take_zero, List.drop_zero] at hsd
  unfold destruct
  rw [hwait, Option.some_bind, hsd]
  refine ⟨_, _, rfl, rfl, rfl, ?_, hq, ?_⟩
  · simp only [List.length_nil]
    omega
  · simp only [List.append_nil]
    refine List.Perm.trans ?_ hperm
    refine List.Perm.map _ ?_
    exact (List.reverse_perm _).append_left acc

/-- C7: across any sequence of grow, shrink and set-count operations
followed by destruction, every worker thread ever spawned is joined exactly
once: the ghost serials of all joined workers are a permutation of all
serials ever handed out (nothing is leaked, nothing is joined twice), and
destruction leaves the pool owning no threads. -/
theorem every_spawned_worker_joined_exactly_once (hw k : Nat) (f : Bool)
    (cmds : List Cmd) :
    ∃ p joined q djoined,
      runCmds (ThreadPool.construct hw k f) cmds = some (p, joined) ∧
      destruct p = some (q, djoined) ∧
      q.m_threads = [] ∧
      ((joined ++ djoined).map Worker.serial).Perm (List.range p.m_next_serial) ∧
      ((joined ++ djoined).map Worker.serial).Nodup := by
  have h0 : poolWF [] (⟨0, [], [], 0⟩ : ThreadPool) := by
    refine ⟨rfl, rfl, ?_⟩
    simp
  have hc : poolWF [] (ThreadPool.construct hw k f) :=
    poolWF_start [] ⟨0, [], [], 0⟩ (if f then k else min hw k) h0
  obtain ⟨p, joined, hrun, hwf⟩ := runCmds_wf cmds _ [] hc
  obtain ⟨q, djoined, hdes, hnil, hser, hwf2⟩ :=
    destruct_wf joined p (by simpa using hwf)
  have hperm : ((joined ++ djoined).map Worker.serial).Perm
      (List.range p.m_next_serial) := by
    have h2 := hwf2.2.2
    rw [hnil, List.append_nil, hser] at h2
    exact h2
  exact ⟨p, joined, q, djoined, hrun, hdes, hnil, hperm,
    hperm.symm.nodup (List.nodup_range _)⟩
